import Mathlib

/-!
Verification of the `web` scraper (main.go) against its specification.

Strings from the Go source are modelled as `List Char`; Go works on bytes
and the inputs of interest are ASCII, so one `Char` per byte is faithful.
Machine integers are modelled as `Int`/`Nat` with explicit bounds where Go
semantics require them.
-/

/-- Converts a Lean string literal to the character-list representation used
throughout this development. -/
def str (s : String) : List Char := s.data

/-- Character class trimmed by Go strings.TrimSpace: this is exactly the
Unicode White_Space property tested by unicode.IsSpace. -/
def wsChar (c : Char) : Bool :=
  c = ' ' || c = '\t' || c = '\n' || c.toNat = 0x0B || c.toNat = 0x0C || c = '\r' ||
  c.toNat = 0x85 || c.toNat = 0xA0 || c.toNat = 0x1680 ||
  (0x2000 <= c.toNat && c.toNat <= 0x200A) ||
  c.toNat = 0x2028 || c.toNat = 0x2029 || c.toNat = 0x202F ||
  c.toNat = 0x205F || c.toNat = 0x3000

/-- Model of Go strings.ToUpper restricted to ASCII input (the only input
produced by the program: console level tags such as "warn" or "error"). -/
def upperAscii (l : List Char) : List Char := l.map Char.toUpper

/-- Model of Go strings.Contains for a non-empty pattern: the pattern occurs
as a contiguous substring. -/
def containsSub : List Char → List Char → Bool
  | [], pat => pat.isPrefixOf ([] : List Char)
  | s@(_ :: t), pat => pat.isPrefixOf s || containsSub t pat

/-- Fuel-indexed single pass of Go strings.ReplaceAll: scans left to right,
replacing each non-overlapping occurrence of `pat` by `rep`.  The fuel is
only a structural-recursion device; `s.length` fuel always suffices because
every step consumes at least one character of `s`. -/
def replaceAllF (pat rep : List Char) : Nat → List Char → List Char
  | _, [] => []
  | 0, s => s
  | fuel+1, c :: s =>
    if pat.isPrefixOf (c :: s) ∧ pat ≠ []
    then rep ++ replaceAllF pat rep fuel (List.drop (pat.length - 1) s)
    else c :: replaceAllF pat rep fuel s

/-- Model of Go strings.ReplaceAll(s, pat, rep) for a non-empty pattern. -/
def replaceAll (s pat rep : List Char) : List Char := replaceAllF pat rep s.length s

/-- Three newlines: the pattern collapsed by cleanMarkdown. -/
def nl3 : List Char := ['\n', '\n', '\n']

/-- Two newlines: the replacement used by cleanMarkdown. -/
def nl2 : List Char := ['\n', '\n']

/-- Fuel-indexed form of the cleanMarkdown loop
`for strings.Contains(markdown, nl3) { markdown = ReplaceAll(markdown, nl3, nl2) }`.
Each iteration strictly shrinks the string, so `s.length + 1` fuel suffices. -/
def collapseF : Nat → List Char → List Char
  | 0, s => s
  | fuel+1, s => if containsSub s nl3 then collapseF fuel (replaceAll s nl3 nl2) else s

/-- The blank-line collapsing loop of cleanMarkdown. -/
def collapseNewlines (s : List Char) : List Char := collapseF (s.length + 1) s

/-- Model of Go strings.Split(s, eol) where eol is a single newline. -/
def splitNl : List Char → List (List Char)
  | [] => [[]]
  | c :: t =>
    if c = '\n' then [] :: splitNl t
    else
      match splitNl t with
      | [] => [[c]]
      | h :: tl => (c :: h) :: tl

/-- Model of Go strings.Join(lines, eol) where eol is a single newline. -/
def joinNl : List (List Char) → List Char
  | [] => []
  | [l] => l
  | l :: ls => l ++ '\n' :: joinNl ls

/-- Model of Go strings.TrimPrefix(s, pre). -/
def stripPre (s pre : List Char) : List Char :=
  if pre.isPrefixOf s then s.drop pre.length else s

/-- Right-trim of White_Space characters; together with a left `dropWhile`
this models Go strings.TrimSpace. -/
def rtrim : List Char → List Char
  | [] => []
  | c :: t =>
    match rtrim t with
    | [] => if wsChar c then [] else [c]
    | r => c :: r

/-- Model of Go strings.TrimSpace. -/
def trimSpace (s : List Char) : List Char := rtrim (s.dropWhile wsChar)

/-- Per-line bullet normalisation body of cleanMarkdown:
lines starting with star-blank or dash-blank become dash-blank lines. -/
def bulletNorm (line : List Char) : List Char :=
  if (str "* ").isPrefixOf line ∨ (str "- ").isPrefixOf line
  then str "- " ++ stripPre (stripPre line (str "* ")) (str "- ")
  else line

/-- Model of cleanMarkdown (main.go lines 901-921): three identity header
rewrites, the blank-line collapsing loop, per-line bullet normalisation, and
a final TrimSpace. -/
def cleanMarkdown (markdown : List Char) : List Char :=
  let m1 := replaceAll markdown (str "\n# ") (str "\n# ")
  let m2 := replaceAll m1 (str "\n## ") (str "\n## ")
  let m3 := replaceAll m2 (str "\n### ") (str "\n### ")
  let m4 := collapseNewlines m3
  let lines := splitNl m4
  let lines2 := lines.map bulletNorm
  trimSpace (joinNl lines2)

/-- Decimal rendering of a Nat, modelling the %d verb of fmt.Sprintf for the
positive values reaching it. -/
def natStr (n : Nat) : List Char := (Nat.repr n).data

/-- Bordered header block of the final output (main.go line 681). -/
def headerFor (baseURL : List Char) : List Char :=
  str "==========================\n" ++ baseURL ++ str "\n==========================\n\n"

/-- The truncation notice appended at main.go line 677, stating the budget
and the length passed for the full content. -/
def noticeFor (budget fullLen : Nat) : List Char :=
  str "\n\n... (output truncated after " ++ natStr budget ++
    str " chars, full content was " ++ natStr fullLen ++ str " chars)"

/-- The CONSOLE OUTPUT section (main.go lines 684-689), emitted only when at
least one message was collected. -/
def consoleSection (msgs : List (List Char)) : List Char :=
  if msgs.length > 0 then
    str "\n\n" ++ List.replicate 50 '=' ++ str "\nCONSOLE OUTPUT:\n" ++
      List.replicate 50 '=' ++ str "\n" ++
      msgs.foldl (fun acc m => acc ++ m ++ ['\n']) []
  else []

/-- Final output assembly of processRequest (main.go lines 661-691): raw mode
returns the page source unchanged; otherwise the html2text result `htmlText`
is normalised, truncated against the budget, and wrapped with the header and
the console section.  The budget is a Nat because parseArgs keeps the Go int
strictly positive. -/
def processOutput (rawFlag : Bool) (truncateAfter : Nat) (baseURL content htmlText : List Char)
    (msgs : List (List Char)) : List Char :=
  if rawFlag then content
  else
    let markdown := cleanMarkdown htmlText
    let markdown :=
      if markdown.length > truncateAfter
      then markdown.take truncateAfter ++ noticeFor truncateAfter htmlText.length
      else markdown
    headerFor baseURL ++ markdown ++ consoleSection msgs

/-- Model of ensureProtocol (main.go lines 893-898). -/
def ensureProtocol (url : List Char) : List Char :=
  if ¬ (str "http://").isPrefixOf url ∧ ¬ (str "https://").isPrefixOf url
  then str "http://" ++ url
  else url

/-- Output assembly as invoked by processRequest: the navigated and displayed
base URL is `ensureProtocol` of the configured URL (main.go lines 403, 681). -/
def renderResult (rawFlag : Bool) (truncateAfter : Nat) (configURL content htmlText : List Char)
    (msgs : List (List Char)) : List Char :=
  processOutput rawFlag truncateAfter (ensureProtocol configURL) content htmlText msgs

/-- One entry of the in-page instrumented capture list `window.__consoleMessages`
(main.go lines 453-475).  The injected script always pushes string `level` and
`message` fields; `none` models a script result whose field is not a string,
for which the Go code substitutes defaults (lines 631-641). -/
structure CapturedEntry where
  level : Option (List Char)
  message : Option (List Char)
  deriving DecidableEq

/-- One entry returned by the native browser log channel (main.go lines 650-659). -/
structure BrowserEntry where
  level : List Char
  message : List Char
  deriving DecidableEq

/-- Formatting of one instrumented entry (main.go lines 631-643): the level is
upper-cased, the short form WARN is expanded to WARNING, a missing level
defaults to LOG, and the entry is rendered as bracket-level message. -/
def fmtCaptured (e : CapturedEntry) : List Char :=
  let level :=
    match e.level with
    | some lvl =>
      let u := upperAscii lvl
      if u = str "WARN" then str "WARNING" else u
    | none => str "LOG"
  let message := e.message.getD []
  str "[" ++ level ++ str "] " ++ message

/-- Severity filter applied to native browser-log entries (main.go line 655). -/
def browserPass (e : BrowserEntry) : Bool :=
  let level := upperAscii e.level
  level = str "WARNING" || level = str "WARN" || level = str "ERROR" || level = str "SEVERE"

/-- Formatting of one native browser-log entry (main.go line 656): upper-cased
level, no WARN expansion. -/
def fmtBrowser (e : BrowserEntry) : List Char :=
  str "[" ++ upperAscii e.level ++ str "] " ++ e.message

/-- The console-message collection of processRequest (main.go lines 623-659):
first every instrumented entry is appended in emission order, then every
native entry passing the severity filter. -/
def collectConsoleMessages (captured : List CapturedEntry) (browser : List BrowserEntry) :
    List (List Char) :=
  let msgs := captured.foldl (fun acc e => acc ++ [fmtCaptured e]) []
  browser.foldl (fun acc e => if browserPass e then acc ++ [fmtBrowser e] else acc) msgs

/-- A caller-supplied form field, ordered (main.go struct FormInput). -/
structure FormInput where
  name : List Char
  value : List Char
  deriving DecidableEq

/-- Observable browser actions performed by the form-handling and
navigation-wait code, in execution order. -/
inductive Ev where
  | fillField (name value : List Char)
  | submitEnterForm (formID : List Char)
  | clickSubmit (formID : List Char)
  | waitFn (cond : List Char) (timeoutMs : Nat) (ok : Bool)
  | getURL (url : List Char)
  | sleepMs (ms : Nat)
  | println (msg : List Char)
  deriving DecidableEq

/-- The WebDriver page boundary as seen by handleForm: element lookup by CSS
selector and per-element interaction outcomes.  `some e` is a failure whose
error text is `e`; `none` is success. -/
structure PageOracle where
  findElement : List Char → Except (List Char) Nat
  clearRes : Nat → Option (List Char)
  sendKeysRes : Nat → List Char → Option (List Char)
  clickRes : Nat → Option (List Char)

/-- CSS selector built for one input field (main.go line 719). -/
def inputSelector (formID name : List Char) : List Char :=
  str "#" ++ formID ++ str " input[name=\x27" ++ name ++ str "\x27]"

/-- CSS selector for the form container (main.go lines 734, 769). -/
def formSelector (formID : List Char) : List Char := str "#" ++ formID

/-- CSS selector for a submit control (main.go line 765). -/
def submitSelector (formID : List Char) : List Char :=
  str "#" ++ formID ++ str " input[type=\x27submit\x27], #" ++ formID ++
    str " button[type=\x27submit\x27]"

/-- The WebDriver activation-key constant selenium.EnterKey. -/
def enterKey : List Char := ['\uE007']

/-- JavaScript condition polled for the loading flag becoming true. -/
def loadingTrueCond : List Char :=
  str "return window.__phxNavigationState && window.__phxNavigationState.loading === true"

/-- JavaScript condition polled for the loading flag becoming false. -/
def loadingFalseCond : List Char :=
  str "return window.__phxNavigationState && window.__phxNavigationState.loading === false"

/-- The field-fill loop of handleForm (main.go lines 718-730): resolve, clear
and fill each field in order, stopping at the first failure with an error that
names the offending field.  Returns the performed fill events and the error,
if any. -/
def fillInputs (o : PageOracle) (formID : List Char) :
    List FormInput → List Ev × Option (List Char)
  | [] => ([], none)
  | inp :: rest =>
    match o.findElement (inputSelector formID inp.name) with
    | .error e => ([], some (str "could not find input " ++ inp.name ++ str ": " ++ e))
    | .ok el =>
      match o.clearRes el with
      | some e => ([], some (str "could not clear input " ++ inp.name ++ str ": " ++ e))
      | none =>
        match o.sendKeysRes el inp.value with
        | some e => ([], some (str "could not fill input " ++ inp.name ++ str ": " ++ e))
        | none =>
          match fillInputs o formID rest with
          | (evs, err) => (Ev.fillField inp.name inp.value :: evs, err)

/-- Model of handleForm (main.go lines 716-786).  The outcomes of successive
waitForFunction calls are drawn in order from `waits` (true means the
condition was met before the timeout); the millisecond timeouts recorded in
the trace are the literals passed in the source. -/
def handleForm (o : PageOracle) (waits : List Bool) (formID : List Char)
    (inputs : List FormInput) (isLiveView : Bool) : List Ev × Option (List Char) :=
  match fillInputs o formID inputs with
  | (evs, some e) => (evs, some e)
  | (evs, none) =>
    if isLiveView then
      match o.findElement (formSelector formID) with
      | .error e => (evs, some (str "could not find LiveView form: " ++ e))
      | .ok el =>
        match o.sendKeysRes el enterKey with
        | some e => (evs, some (str "could not submit LiveView form: " ++ e))
        | none =>
          let evs := evs ++ [Ev.submitEnterForm formID,
            Ev.println (str "Waiting for Phoenix LiveView navigation...")]
          let r0 := waits.getD 0 false
          let evs := evs ++ [Ev.waitFn loadingTrueCond 2000 r0]
          let evs :=
            if r0 = false then
              evs ++ [Ev.println
                (str "Info: No navigation detected (this is normal for in-place updates)")]
            else
              let r1 := waits.getD 1 false
              let evs := evs ++ [Ev.waitFn loadingFalseCond 10000 r1]
              if r1 = false then
                evs ++ [Ev.println (str "Warning: Navigation did not complete within timeout")]
              else
                evs ++ [Ev.println (str "Phoenix LiveView navigation completed")]
          (evs ++ [Ev.println (str "LiveView form submitted")], none)
    else
      match o.findElement (submitSelector formID) with
      | .error _ =>
        match o.findElement (formSelector formID) with
        | .error e => (evs, some (str "could not submit form: " ++ e))
        | .ok fel =>
          match o.sendKeysRes fel enterKey with
          | some e => (evs, some (str "could not submit form: " ++ e))
          | none => (evs ++ [Ev.submitEnterForm formID,
              Ev.println (str "Form submitted")], none)
      | .ok sel =>
        match o.clickRes sel with
        | some e => (evs, some (str "could not click submit button: " ++ e))
        | none => (evs ++ [Ev.clickSubmit formID, Ev.println (str "Form submitted")], none)

/-- The form-handling guard of processRequest (main.go lines 514-519): the
form is touched only when a container id was supplied and the field list is
non-empty. -/
def formPhase (o : PageOracle) (waits : List Bool) (formID : List Char)
    (inputs : List FormInput) (isLiveView : Bool) : List Ev × Option (List Char) :=
  if formID ≠ [] ∧ inputs.length > 0
  then handleForm o waits formID inputs isLiveView
  else ([], none)

/-- The navigation wait performed after injected-script execution on a
LiveView page (main.go lines 532-558), parameterized by the URL captured
before the script ran and the URL observed afterwards.  This is the branch
that polls 1 second for the loading flag and falls back to a URL comparison. -/
def jsLiveViewNavWait (waits : List Bool) (preURL newURL : List Char) : List Ev :=
  [Ev.println (str "Waiting for Phoenix LiveView navigation..."), Ev.sleepMs 100] ++
  (let r0 := waits.getD 0 false
   [Ev.waitFn loadingTrueCond 1000 r0] ++
   (if r0 = false then
      [Ev.getURL newURL] ++
      (if newURL ≠ preURL then
        [Ev.println (str "URL changed, waiting for page to stabilize..."), Ev.sleepMs 500]
       else
        [Ev.println (str "Info: No navigation detected (in-place LiveView update)")])
    else
      let r1 := waits.getD 1 false
      [Ev.waitFn loadingFalseCond 10000 r1] ++
      (if r1 = false then
        [Ev.println (str "Warning: Navigation did not complete within timeout")]
       else
        [Ev.println (str "Phoenix LiveView navigation completed")])))

/-- Result of one ExecuteScript evaluation at the script boundary: an error,
a boolean, or some non-boolean value. -/
inductive JsVal where
  | bool (b : Bool)
  | other
  deriving DecidableEq

/-- Outcome of the collaborator polling primitive WaitWithTimeout. -/
inductive WaitResult where
  | success
  | timeout
  | condError (e : List Char)
  deriving DecidableEq

/-- The condition closure built by waitForFunction (main.go lines 704-713):
a script error is reported as (false, no error); a non-boolean script result
is reported as (false, no error); a boolean result is passed through. -/
def waitForFunctionCond (execResult : Except (List Char) JsVal) : Bool × Option (List Char) :=
  match execResult with
  | .error _ => (false, none)
  | .ok (.bool b) => (b, none)
  | .ok .other => (false, none)

/-- Model of the collaborator primitive selenium WaitWithTimeout: the
condition is evaluated at successive poll indices; an error returned by the
condition is propagated immediately, a true result succeeds, and exhausting
the poll budget (the timeout) yields `timeout`.  Real time is abstracted to
the number of evaluation rounds. -/
def waitWithTimeout (cond : Nat → Bool × Option (List Char)) : Nat → Nat → WaitResult
  | 0, _ => .timeout
  | n+1, i =>
    match cond i with
    | (_, some e) => .condError e
    | (true, none) => .success
    | (false, none) => waitWithTimeout cond n (i+1)

/-- Model of waitForFunction (main.go lines 703-714): WaitWithTimeout applied
to the wrapped condition, with the i-th script evaluation outcome supplied by
`exec`. -/
def waitForFunction (exec : Nat → Except (List Char) JsVal) (maxPolls : Nat) : WaitResult :=
  waitWithTimeout (fun i => waitForFunctionCond (exec i)) maxPolls 0

/-- The run configuration produced by parseArgs (main.go struct Config). -/
structure Config where
  url : List Char
  profile : List Char
  formID : List Char
  inputs : List FormInput
  afterSubmitURL : List Char
  jsCode : List Char
  screenshotPath : List Char
  truncateAfter : Int
  rawFlag : Bool
  deriving DecidableEq

/-- The initial configuration of parseArgs (main.go lines 789-792):
truncation budget DEFAULT_TRUNCATE_AFTER = 100000 and profile "default". -/
def defaultConfig : Config :=
  { url := [], profile := str "default", formID := [], inputs := [],
    afterSubmitURL := [], jsCode := [], screenshotPath := [],
    truncateAfter := 100000, rawFlag := false }

/-- Decimal digit test used by the Atoi model. -/
def isDigitCh (c : Char) : Bool := 48 ≤ c.toNat && c.toNat ≤ 57

/-- Value of a non-empty all-digit string. -/
def digitsVal (l : List Char) : Option Nat :=
  if l ≠ [] ∧ l.all isDigitCh then
    some (l.foldl (fun a c => 10 * a + (c.toNat - 48)) 0)
  else none

/-- Model of Go strconv.Atoi on a 64-bit platform: an optional sign followed
by at least one digit, rejecting any other character and values outside the
int64 range. -/
def atoi (s : List Char) : Option Int :=
  match s with
  | '+' :: rest =>
    match digitsVal rest with
    | some n => if n ≤ 9223372036854775807 then some (Int.ofNat n) else none
    | none => none
  | '-' :: rest =>
    match digitsVal rest with
    | some n => if n ≤ 9223372036854775808 then some (-(Int.ofNat n)) else none
    | none => none
  | _ =>
    match digitsVal s with
    | some n => if n ≤ 9223372036854775807 then some (Int.ofNat n) else none
    | none => none

/-- One iteration of the parseArgs loop body (the switch at main.go lines
798-856), given the current configuration, the argument under the index, and
the arguments after it.  `none` models the --help branch, which prints the
usage text and exits the process; otherwise the result is the updated
configuration and the arguments that remain unread after the i increments
performed by the branch.  Branches that find the end of the slice while
looking ahead leave nothing unread, exactly as the Go loop does when i runs
out. -/
def parseStep (cfg : Config) (arg : List Char) (rest : List (List Char)) :
    Option (Config × List (List Char)) :=
  if arg = str "--help" then none
  else if arg = str "--raw" then some ({ cfg with rawFlag := true }, rest)
  else if arg = str "--truncate-after" then
    match rest with
    | [] => some (cfg, [])
    | v :: rest2 =>
      let cfg2 :=
        match atoi v with
        | some val => if val > 0 then { cfg with truncateAfter := val } else cfg
        | none => cfg
      some (cfg2, rest2)
  else if arg = str "--screenshot" then
    match rest with
    | [] => some (cfg, [])
    | v :: rest2 => some ({ cfg with screenshotPath := v }, rest2)
  else if arg = str "--form" then
    match rest with
    | [] => some (cfg, [])
    | v :: rest2 => some ({ cfg with formID := v }, rest2)
  else if arg = str "--input" then
    match rest with
    | [] => some (cfg, [])
    | nm :: rest2 =>
      match rest2 with
      | [] => some (cfg, [])
      | v :: rest3 =>
        if v = str "--value" then
          match rest3 with
          | [] => some (cfg, [])
          | value :: rest4 => some ({ cfg with inputs := cfg.inputs ++ [⟨nm, value⟩] }, rest4)
        else some (cfg, rest2)
  else if arg = str "--value" then some (cfg, rest)
  else if arg = str "--after-submit" then
    match rest with
    | [] => some (cfg, [])
    | v :: rest2 => some ({ cfg with afterSubmitURL := ensureProtocol v }, rest2)
  else if arg = str "--js" then
    match rest with
    | [] => some (cfg, [])
    | v :: rest2 => some ({ cfg with jsCode := v }, rest2)
  else if arg = str "--profile" then
    match rest with
    | [] => some (cfg, [])
    | v :: rest2 => some ({ cfg with profile := v }, rest2)
  else
    some ((if cfg.url = [] ∧ ¬ (str "--").isPrefixOf arg then { cfg with url := arg } else cfg),
      rest)

/-- The parseArgs loop (main.go lines 794-857), indexed by fuel.  The Go loop
walks an index i over the argument slice; here the unread suffix is the last
argument and each iteration is one `parseStep`.  Every step consumes at least
one argument and exactly one unit of fuel, so fuel equal to the argument
count never runs out; the fuel-exhausted branch is unreachable from
parseArgs. -/
def parseLoopF : Nat → Config → List (List Char) → Option Config
  | _, cfg, [] => some cfg
  | 0, cfg, _ :: _ => some cfg
  | fuel+1, cfg, arg :: rest =>
    match parseStep cfg arg rest with
    | none => none
    | some (cfg2, rest2) => parseLoopF fuel cfg2 rest2

/-- Model of parseArgs (main.go lines 788-860). -/
def parseArgs (args : List (List Char)) : Option Config :=
  parseLoopF args.length defaultConfig args

theorem foldl_append_singleton {α β : Type} (f : α → β) :
    ∀ (l : List α) (acc : List β),
      l.foldl (fun a e => a ++ [f e]) acc = acc ++ l.map f
  | [], acc => by simp
  | x :: xs, acc => by
    simp [List.foldl_cons, foldl_append_singleton f xs]

theorem foldl_filter_append_singleton {α β : Type} (p : α → Bool) (g : α → β) :
    ∀ (l : List α) (acc : List β),
      l.foldl (fun a e => if p e then a ++ [g e] else a) acc = acc ++ (l.filter p).map g
  | [], acc => by simp
  | x :: xs, acc => by
    by_cases h : p x <;>
      simp [List.foldl_cons, h, foldl_filter_append_singleton p g xs, List.filter_cons]

/-- Claim C7: when raw mode is requested the run returns exactly the page
source, with no normalization, truncation, header block, or console section. -/
theorem C7_raw_mode_returns_page_source
    (truncateAfter : Nat) (baseURL content htmlText : List Char) (msgs : List (List Char)) :
    processOutput true truncateAfter baseURL content htmlText msgs = content := rfl

/-- Claim C10: with an empty field list no form interaction occurs at all,
even when a form container id is supplied: no element is filled, nothing is
submitted, and no error arises. -/
theorem C10_empty_inputs_no_form_interaction
    (o : PageOracle) (waits : List Bool) (formID : List Char) (isLiveView : Bool) :
    formPhase o waits formID [] isLiveView = ([], none) := by
  simp [formPhase]

theorem waitWithTimeout_wrapped_result (exec : Nat → Except (List Char) JsVal) :
    ∀ (n i : Nat),
      waitWithTimeout (fun j => waitForFunctionCond (exec j)) n i = WaitResult.success ∨
      waitWithTimeout (fun j => waitForFunctionCond (exec j)) n i = WaitResult.timeout
  | 0, _ => Or.inr rfl
  | n+1, i => by
    cases h : exec i with
    | error e =>
      simpa [waitWithTimeout, waitForFunctionCond, h] using
        waitWithTimeout_wrapped_result exec n (i+1)
    | ok v =>
      cases v with
      | bool b =>
        cases b with
        | false =>
          simpa [waitWithTimeout, waitForFunctionCond, h] using
            waitWithTimeout_wrapped_result exec n (i+1)
        | true => simp [waitWithTimeout, waitForFunctionCond, h]
      | other =>
        simpa [waitWithTimeout, waitForFunctionCond, h] using
          waitWithTimeout_wrapped_result exec n (i+1)

/-- Claim C6: an error raised while evaluating a polled condition is reported
by the waitForFunction wrapper as the condition not yet holding, with no
error, and consequently no condition error ever reaches the caller of a
poll: every wait ends in success or timeout. -/
theorem C6_wait_condition_errors_never_propagate :
    (∀ e : List Char, waitForFunctionCond (Except.error e) = (false, none)) ∧
    (∀ (exec : Nat → Except (List Char) JsVal) (maxPolls : Nat),
      waitForFunction exec maxPolls = WaitResult.success ∨
      waitForFunction exec maxPolls = WaitResult.timeout) :=
  ⟨fun _ => rfl, fun exec maxPolls => waitWithTimeout_wrapped_result exec maxPolls 0⟩

/-- Claim C8: a URL without an http or https scheme prefix is navigated and
displayed with http:// prepended, a URL with such a prefix is used unchanged,
and the output header of a non-raw run begins with the border followed by the
resolved URL. -/
theorem C8_protocol_defaulting (url : List Char) :
    ((¬ (str "http://") <+: url ∧ ¬ (str "https://") <+: url) →
      ensureProtocol url = str "http://" ++ url) ∧
    (((str "http://") <+: url ∨ (str "https://") <+: url) → ensureProtocol url = url) ∧
    (∀ (truncateAfter : Nat) (content htmlText : List Char) (msgs : List (List Char)),
      (str "==========================\n" ++ ensureProtocol url) <+:
        renderResult false truncateAfter url content htmlText msgs) := by
  refine ⟨fun h => ?_, fun h => ?_, fun truncateAfter content htmlText msgs => ?_⟩
  · simp only [ensureProtocol, List.isPrefixOf_iff_prefix]
    rw [if_pos h]
  · simp only [ensureProtocol, List.isPrefixOf_iff_prefix]
    rcases h with h | h
    · rw [if_neg]; simp [h]
    · rw [if_neg]; simp [h]
  · refine ⟨str "\n==========================\n\n" ++
      ((if (cleanMarkdown htmlText).length > truncateAfter
        then (cleanMarkdown htmlText).take truncateAfter ++
          noticeFor truncateAfter htmlText.length
        else cleanMarkdown htmlText) ++ consoleSection msgs), ?_⟩
    simp [renderResult, processOutput, headerFor, List.append_assoc]

theorem C8_witness :
    ensureProtocol (str "example.com") = str "http://" ++ str "example.com" ∧
    ensureProtocol (str "http://a.com") = str "http://a.com" :=
  ⟨(C8_protocol_defaulting (str "example.com")).1 (by decide),
   (C8_protocol_defaulting (str "http://a.com")).2.1 (Or.inl (by decide))⟩

/-- Claim C3, counterexample to the claim as stated: a native browser-log
entry with level warn is merged with level text WARN, not expanded to
WARNING as the claim asserts for every merged entry. -/
theorem C3_counterexample :
    collectConsoleMessages [] [⟨str "warn", str "m"⟩] = [str "[WARN] m"] ∧
    str "[WARN] m" ≠ str "[WARNING] m" := by decide

/-- Claim C3, amended: the merged sequence is all instrumented entries first,
in emission order, followed by the native entries passing the severity
filter; instrumented level text is upper-cased with WARN expanded to WARNING,
while native level text is upper-cased without the WARN expansion. -/
theorem C3_merge_order_and_levels
    (captured : List CapturedEntry) (browser : List BrowserEntry) :
    collectConsoleMessages captured browser =
      captured.map fmtCaptured ++ (browser.filter browserPass).map fmtBrowser ∧
    (∀ m : List Char, fmtCaptured ⟨some (str "warn"), some m⟩ = str "[WARNING] " ++ m) ∧
    (∀ m : List Char, fmtBrowser ⟨str "warn", m⟩ = str "[WARN] " ++ m) := by
  refine ⟨?_, fun m => rfl, fun m => rfl⟩
  simp [collectConsoleMessages, foldl_append_singleton, foldl_filter_append_singleton]

/-- Claim C1, counterexample to the claim as stated: with budget 3 and
html2text output " abcd" the normalized text is "abcd" of length 4, but the
notice reports 5, the length of the text before normalization, so the output
is not the claimed one built from the normalized-text length. -/
theorem C1_counterexample :
    processOutput false 3 (str "u") (str "c") (str " abcd") [] ≠
      headerFor (str "u") ++
        ((cleanMarkdown (str " abcd")).take 3 ++
          noticeFor 3 (cleanMarkdown (str " abcd")).length) ++
        consoleSection [] := by decide

/-- Claim C1, amended: when the normalized text is longer than the budget,
the non-raw output is the header, the first budget characters of the
normalized text, a notice, and the console section; the notice literally
states the budget and the length of the text before normalization (the
html2text output), not the normalized length. -/
theorem C1_truncation_notice
    (truncateAfter : Nat) (baseURL content htmlText : List Char) (msgs : List (List Char))
    (h : (cleanMarkdown htmlText).length > truncateAfter) :
    processOutput false truncateAfter baseURL content htmlText msgs =
      headerFor baseURL ++
        ((cleanMarkdown htmlText).take truncateAfter ++
          noticeFor truncateAfter htmlText.length) ++
        consoleSection msgs ∧
    natStr truncateAfter <:+: noticeFor truncateAfter htmlText.length ∧
    natStr htmlText.length <:+: noticeFor truncateAfter htmlText.length := by
  refine ⟨?_, ?_, ?_⟩
  · simp [processOutput, if_pos h, List.append_assoc]
  · exact ⟨str "\n\n... (output truncated after ",
      str " chars, full content was " ++ natStr htmlText.length ++ str " chars)",
      by simp [noticeFor, List.append_assoc]⟩
  · exact ⟨str "\n\n... (output truncated after " ++ natStr truncateAfter ++
      str " chars, full content was ", str " chars)",
      by simp [noticeFor, List.append_assoc]⟩

theorem C1_witness :
    (cleanMarkdown (str " abcd")).length > 3 ∧
    processOutput false 3 (str "u") (str "c") (str " abcd") [] =
      headerFor (str "u") ++
        ((cleanMarkdown (str " abcd")).take 3 ++ noticeFor 3 (str " abcd").length) ++
        consoleSection [] :=
  ⟨by decide, (C1_truncation_notice 3 (str "u") (str "c") (str " abcd") [] (by decide)).1⟩

/-- A page on which every element lookup and interaction succeeds. -/
def okOracle : PageOracle :=
  ⟨fun _ => Except.ok 0, fun _ => none, fun _ _ => none, fun _ => none⟩

/-- A page on which every element lookup fails. -/
def lookupFailOracle : PageOracle :=
  ⟨fun _ => Except.error (str "boom"), fun _ => none, fun _ _ => none, fun _ => none⟩

/-- Claim C2, counterexample to the claim as stated: after a form submission
on a LiveView page with the loading flag never observed, the wait performed
polls with a 2000 ms timeout, no poll uses a 1000 ms timeout, and the current
URL is never read, so no comparison with the pre-submission URL happens. -/
theorem C2_counterexample :
    Ev.waitFn loadingTrueCond 2000 false ∈
      (handleForm okOracle [] (str "f") [⟨str "a", str "b"⟩] true).1 ∧
    ((handleForm okOracle [] (str "f") [⟨str "a", str "b"⟩] true).1.all fun e =>
      match e with
      | Ev.waitFn _ 1000 _ => false
      | Ev.getURL _ => false
      | _ => true) = true := by decide

/-- Claim C2, amended: after a form submission on a Dynamic (LiveView) page
the navigation wait polls up to 2 seconds for the loading flag to become
true; if it is not observed, an in-place update is concluded (informational)
with no URL comparison; if it was observed, the wait polls up to 10 seconds
for the flag to become false, a timeout there being a non-fatal warning, and
processing continues with no error in every case. -/
theorem C2_liveview_form_navigation_wait
    (o : PageOracle) (waits : List Bool) (formID : List Char) (inputs : List FormInput)
    (el : Nat)
    (hfill : (fillInputs o formID inputs).2 = none)
    (hform : o.findElement (formSelector formID) = Except.ok el)
    (hkeys : o.sendKeysRes el enterKey = none) :
    handleForm o waits formID inputs true =
      ((fillInputs o formID inputs).1 ++
        [Ev.submitEnterForm formID,
         Ev.println (str "Waiting for Phoenix LiveView navigation..."),
         Ev.waitFn loadingTrueCond 2000 (waits.getD 0 false)] ++
        (if waits.getD 0 false = false then
          [Ev.println (str "Info: No navigation detected (this is normal for in-place updates)")]
         else
          Ev.waitFn loadingFalseCond 10000 (waits.getD 1 false) ::
          (if waits.getD 1 false = false then
            [Ev.println (str "Warning: Navigation did not complete within timeout")]
           else [Ev.println (str "Phoenix LiveView navigation completed")])) ++
        [Ev.println (str "LiveView form submitted")], none) := by
  rcases hfi : fillInputs o formID inputs with ⟨evs, err⟩
  rw [hfi] at hfill
  dsimp only at hfill
  subst hfill
  simp only [handleForm, hfi, hform, hkeys]
  cases h0 : waits.getD 0 false with
  | false => simp [h0, List.append_assoc]
  | true =>
    cases h1 : waits.getD 1 false with
    | false => simp [h0, h1, List.append_assoc]
    | true => simp [h0, h1, List.append_assoc]

theorem C2_witness :
    (fillInputs okOracle (str "f") []).2 = none ∧
    handleForm okOracle [true] (str "f") [] true =
      ((fillInputs okOracle (str "f") []).1 ++
        [Ev.submitEnterForm (str "f"),
         Ev.println (str "Waiting for Phoenix LiveView navigation..."),
         Ev.waitFn loadingTrueCond 2000 ([true].getD 0 false)] ++
        (if [true].getD 0 false = false then
          [Ev.println (str "Info: No navigation detected (this is normal for in-place updates)")]
         else
          Ev.waitFn loadingFalseCond 10000 ([true].getD 1 false) ::
          (if [true].getD 1 false = false then
            [Ev.println (str "Warning: Navigation did not complete within timeout")]
           else [Ev.println (str "Phoenix LiveView navigation completed")])) ++
        [Ev.println (str "LiveView form submitted")], none) :=
  ⟨rfl, C2_liveview_form_navigation_wait okOracle [true] (str "f") [] 0 rfl rfl rfl⟩

theorem fillInputs_append (o : PageOracle) (fid : List Char) :
    ∀ (xs ys : List FormInput), (fillInputs o fid xs).2 = none →
      fillInputs o fid (xs ++ ys) =
        ((fillInputs o fid xs).1 ++ (fillInputs o fid ys).1, (fillInputs o fid ys).2)
  | [], ys, _ => by simp [fillInputs]
  | x :: xs, ys, h => by
    cases hf : o.findElement (inputSelector fid x.name) with
    | error e => exact absurd h (by simp [fillInputs, hf])
    | ok el =>
      cases hc : o.clearRes el with
      | some e => exact absurd h (by simp [fillInputs, hf, hc])
      | none =>
        cases hs : o.sendKeysRes el x.value with
        | some e => exact absurd h (by simp [fillInputs, hf, hc, hs])
        | none =>
          rcases hx : fillInputs o fid xs with ⟨evs, err⟩
          have herr : err = none := by
            have := h
            simp [fillInputs, hf, hc, hs, hx] at this
            exact this
          subst herr
          have hrec := fillInputs_append o fid xs ys (by simp [hx])
          rw [hx] at hrec
          simp [fillInputs, hf, hc, hs, hx, hrec]

theorem fillInputs_events (o : PageOracle) (fid : List Char) :
    ∀ xs : List FormInput, (fillInputs o fid xs).2 = none →
      (fillInputs o fid xs).1 = xs.map (fun f => Ev.fillField f.name f.value)
  | [], _ => by simp [fillInputs]
  | x :: xs, h => by
    cases hf : o.findElement (inputSelector fid x.name) with
    | error e => exact absurd h (by simp [fillInputs, hf])
    | ok el =>
      cases hc : o.clearRes el with
      | some e => exact absurd h (by simp [fillInputs, hf, hc])
      | none =>
        cases hs : o.sendKeysRes el x.value with
        | some e => exact absurd h (by simp [fillInputs, hf, hc, hs])
        | none =>
          rcases hx : fillInputs o fid xs with ⟨evs, err⟩
          have herr : err = none := by
            have := h
            simp [fillInputs, hf, hc, hs, hx] at this
            exact this
          subst herr
          have hrec := fillInputs_events o fid xs (by simp [hx])
          rw [hx] at hrec
          simp [fillInputs, hf, hc, hs, hx, hrec]

theorem fillInputs_cons_of_fail (o : PageOracle) (fid : List Char) (bad : FormInput)
    (post : List FormInput) (e : List Char)
    (h : (fillInputs o fid [bad]).2 = some e) :
    fillInputs o fid (bad :: post) = ([], some e) := by
  cases hf : o.findElement (inputSelector fid bad.name) with
  | error e0 =>
    have he := h
    simp [fillInputs, hf] at he
    simp [fillInputs, hf, he]
  | ok el =>
    cases hc : o.clearRes el with
    | some e0 =>
      have he := h
      simp [fillInputs, hf, hc] at he
      simp [fillInputs, hf, hc, he]
    | none =>
      cases hs : o.sendKeysRes el bad.value with
      | some e0 =>
        have he := h
        simp [fillInputs, hf, hc, hs] at he
        simp [fillInputs, hf, hc, hs, he]
      | none => exact absurd h (by simp [fillInputs, hf, hc, hs])

theorem fillInputs_fail_names_field (o : PageOracle) (fid : List Char) (bad : FormInput)
    (e : List Char) (h : (fillInputs o fid [bad]).2 = some e) :
    bad.name <:+: e := by
  cases hf : o.findElement (inputSelector fid bad.name) with
  | error e0 =>
    simp [fillInputs, hf] at h
    exact ⟨str "could not find input ", str ": " ++ e0, by rw [← h]; simp [List.append_assoc]⟩
  | ok el =>
    cases hc : o.clearRes el with
    | some e0 =>
      simp [fillInputs, hf, hc] at h
      exact ⟨str "could not clear input ", str ": " ++ e0, by rw [← h]; simp [List.append_assoc]⟩
    | none =>
      cases hs : o.sendKeysRes el bad.value with
      | some e0 =>
        simp [fillInputs, hf, hc, hs] at h
        exact ⟨str "could not fill input ", str ": " ++ e0, by rw [← h]; simp [List.append_assoc]⟩
      | none => exact absurd h (by simp [fillInputs, hf, hc, hs])

/-- Claim C5: if some field of the ordered list cannot be located, cleared or
filled, form handling stops at the first such field with an error naming it;
exactly the earlier fields were filled, no later field is touched, and no
submission of any kind is attempted. -/
theorem C5_first_field_failure_aborts
    (o : PageOracle) (waits : List Bool) (formID : List Char)
    (pre : List FormInput) (bad : FormInput) (post : List FormInput)
    (isLiveView : Bool) (e : List Char)
    (hpre : (fillInputs o formID pre).2 = none)
    (hbad : (fillInputs o formID [bad]).2 = some e) :
    handleForm o waits formID (pre ++ bad :: post) isLiveView =
      (pre.map (fun f => Ev.fillField f.name f.value), some e) ∧
    bad.name <:+: e := by
  constructor
  · have happ := fillInputs_append o formID pre (bad :: post) hpre
    have hfail := fillInputs_cons_of_fail o formID bad post e hbad
    have hev := fillInputs_events o formID pre hpre
    rw [hfail] at happ
    simp only [handleForm, happ, hev, List.append_nil]
  · exact fillInputs_fail_names_field o formID bad e hbad

theorem C5_witness :
    handleForm lookupFailOracle [] (str "f")
        ([⟨str "user", str "x"⟩, ⟨str "p", str "q"⟩]) true =
      ([], some (str "could not find input user: boom")) ∧
    str "user" <:+: str "could not find input user: boom" := by
  have h := C5_first_field_failure_aborts lookupFailOracle [] (str "f") []
    ⟨str "user", str "x"⟩ [⟨str "p", str "q"⟩] true
    (str "could not find input user: boom") rfl (by decide)
  simpa using h

theorem parseStep_preserves_pos (cfg : Config) (arg : List Char) (rest : List (List Char))
    (cfg2 : Config) (rest2 : List (List Char))
    (hpos : 0 < cfg.truncateAfter) (h : parseStep cfg arg rest = some (cfg2, rest2)) :
    0 < cfg2.truncateAfter := by
  unfold parseStep at h
  by_cases h1 : arg = str "--help"
  · rw [if_pos h1] at h; exact Option.noConfusion h
  rw [if_neg h1] at h
  by_cases h2 : arg = str "--raw"
  · rw [if_pos h2] at h
    injection h with h; injection h with ha hb; subst ha; exact hpos
  rw [if_neg h2] at h
  by_cases h3 : arg = str "--truncate-after"
  · rw [if_pos h3] at h
    cases rest with
    | nil => injection h with h; injection h with ha hb; subst ha; exact hpos
    | cons v r2 =>
      dsimp only at h
      cases hv : atoi v with
      | none =>
        rw [hv] at h
        injection h with h; injection h with ha hb; subst ha; exact hpos
      | some val =>
        rw [hv] at h
        dsimp only at h
        by_cases hval : val > 0
        · rw [if_pos hval] at h
          injection h with h; injection h with ha hb; subst ha; exact hval
        · rw [if_neg hval] at h
          injection h with h; injection h with ha hb; subst ha; exact hpos
  rw [if_neg h3] at h
  by_cases h4 : arg = str "--screenshot"
  · rw [if_pos h4] at h
    cases rest with
    | nil => injection h with h; injection h with ha hb; subst ha; exact hpos
    | cons v r2 => injection h with h; injection h with ha hb; subst ha; exact hpos
  rw [if_neg h4] at h
  by_cases h5 : arg = str "--form"
  · rw [if_pos h5] at h
    cases rest with
    | nil => injection h with h; injection h with ha hb; subst ha; exact hpos
    | cons v r2 => injection h with h; injection h with ha hb; subst ha; exact hpos
  rw [if_neg h5] at h
  by_cases h6 : arg = str "--input"
  · rw [if_pos h6] at h
    cases rest with
    | nil => injection h with h; injection h with ha hb; subst ha; exact hpos
    | cons nm r2 =>
      cases r2 with
      | nil => injection h with h; injection h with ha hb; subst ha; exact hpos
      | cons v r3 =>
        dsimp only at h
        by_cases hval : v = str "--value"
        · rw [if_pos hval] at h
          cases r3 with
          | nil => injection h with h; injection h with ha hb; subst ha; exact hpos
          | cons value r4 => injection h with h; injection h with ha hb; subst ha; exact hpos
        · rw [if_neg hval] at h
          injection h with h; injection h with ha hb; subst ha; exact hpos
  rw [if_neg h6] at h
  by_cases h7 : arg = str "--value"
  · rw [if_pos h7] at h
    injection h with h; injection h with ha hb; subst ha; exact hpos
  rw [if_neg h7] at h
  by_cases h8 : arg = str "--after-submit"
  · rw [if_pos h8] at h
    cases rest with
    | nil => injection h with h; injection h with ha hb; subst ha; exact hpos
    | cons v r2 => injection h with h; injection h with ha hb; subst ha; exact hpos
  rw [if_neg h8] at h
  by_cases h9 : arg = str "--js"
  · rw [if_pos h9] at h
    cases rest with
    | nil => injection h with h; injection h with ha hb; subst ha; exact hpos
    | cons v r2 => injection h with h; injection h with ha hb; subst ha; exact hpos
  rw [if_neg h9] at h
  by_cases h10 : arg = str "--profile"
  · rw [if_pos h10] at h
    cases rest with
    | nil => injection h with h; injection h with ha hb; subst ha; exact hpos
    | cons v r2 => injection h with h; injection h with ha hb; subst ha; exact hpos
  rw [if_neg h10] at h
  injection h with h; injection h with ha hb; subst ha
  by_cases hu : cfg.url = [] ∧ ¬ (str "--").isPrefixOf arg
  · rw [if_pos hu]; exact hpos
  · rw [if_neg hu]; exact hpos

theorem parseLoopF_preserves_pos :
    ∀ (fuel : Nat) (args : List (List Char)) (cfg out : Config),
      0 < cfg.truncateAfter → parseLoopF fuel cfg args = some out →
      0 < out.truncateAfter := by
  intro fuel
  induction fuel with
  | zero =>
    intro args cfg out hpos h
    cases args with
    | nil => exact (Option.some.inj h) ▸ hpos
    | cons a as => exact (Option.some.inj h) ▸ hpos
  | succ fuel ih =>
    intro args cfg out hpos h
    cases args with
    | nil => exact (Option.some.inj h) ▸ hpos
    | cons arg rest =>
      unfold parseLoopF at h
      cases hs : parseStep cfg arg rest with
      | none => rw [hs] at h; exact Option.noConfusion h
      | some p =>
        rw [hs] at h
        exact ih _ _ _ (parseStep_preserves_pos cfg arg rest p.1 p.2 hpos (by rw [hs])) h

/-- Claim C9: every configuration produced by argument parsing has a strictly
positive truncation budget, and a --truncate-after value that does not parse
as a number, or parses to a value not greater than zero, is silently ignored:
that loop iteration leaves the configuration unchanged, so the default of
100000 is kept unless a positive numeric value is supplied. -/
theorem C9_truncate_budget_positive :
    (∀ (args : List (List Char)) (cfg : Config),
      parseArgs args = some cfg → 0 < cfg.truncateAfter) ∧
    (∀ (fuel : Nat) (cfg : Config) (v : List Char) (rest : List (List Char)),
      (atoi v = none ∨ ∃ n : Int, atoi v = some n ∧ n ≤ 0) →
      parseLoopF (fuel+1) cfg (str "--truncate-after" :: v :: rest) =
        parseLoopF fuel cfg rest) ∧
    defaultConfig.truncateAfter = 100000 := by
  refine ⟨?_, ?_, rfl⟩
  · intro args cfg h
    exact parseLoopF_preserves_pos args.length args defaultConfig cfg (by decide) h
  · intro fuel cfg v rest hbad
    have hstep : parseStep cfg (str "--truncate-after") (v :: rest) = some (cfg, rest) := by
      unfold parseStep
      rw [if_neg (by decide), if_neg (by decide), if_pos rfl]
      dsimp only
      rcases hbad with hnone | ⟨n, hn, hle⟩
      · rw [hnone]
      · rw [hn]
        dsimp only
        rw [if_neg (by omega)]
    show (match parseStep cfg (str "--truncate-after") (v :: rest) with
          | none => none
          | some (cfg2, rest2) => parseLoopF fuel cfg2 rest2) = parseLoopF fuel cfg rest
    rw [hstep]

theorem C9_witness :
    (0 < defaultConfig.truncateAfter) ∧
    parseLoopF 1 defaultConfig (str "--truncate-after" :: str "abc" :: []) =
      parseLoopF 0 defaultConfig [] :=
  ⟨C9_truncate_budget_positive.1 [str "--truncate-after", str "abc"] defaultConfig (by decide),
   C9_truncate_budget_positive.2.1 0 defaultConfig (str "abc") [] (Or.inl (by decide))⟩

theorem splitNl_ne_nil : ∀ x : List Char, splitNl x ≠ []
  | [] => by simp [splitNl]
  | c :: t => by
    simp only [splitNl]
    split
    · simp
    · split <;> simp

theorem joinNl_splitNl : ∀ x : List Char, joinNl (splitNl x) = x
  | [] => rfl
  | c :: t => by
    by_cases hc : c = '\n'
    · subst hc
      simp only [splitNl, if_pos rfl]
      cases hs : splitNl t with
      | nil => exact absurd hs (splitNl_ne_nil t)
      | cons h tl =>
        have hrec := joinNl_splitNl t
        rw [hs] at hrec
        show ([] : List Char) ++ '\n' :: joinNl (h :: tl) = '\n' :: t
        rw [hrec]
        rfl
    · simp only [splitNl, if_neg hc]
      cases hs : splitNl t with
      | nil => exact absurd hs (splitNl_ne_nil t)
      | cons h tl =>
        have hrec := joinNl_splitNl t
        rw [hs] at hrec
        cases tl with
        | nil =>
          show c :: h = c :: t
          rw [show h = t from hrec]
        | cons h2 tl2 =>
          show (c :: h) ++ '\n' :: joinNl (h2 :: tl2) = c :: t
          rw [← hrec]
          rfl

theorem splitNl_no_newline : ∀ (x : List Char) (l : List Char), l ∈ splitNl x → '\n' ∉ l
  | [], l, hl => by
    simp [splitNl] at hl
    subst hl
    simp
  | c :: t, l, hl => by
    by_cases hc : c = '\n'
    · subst hc
      simp only [splitNl, if_pos rfl] at hl
      rcases List.mem_cons.mp hl with h | h
      · subst h; simp
      · exact splitNl_no_newline t l h
    · simp only [splitNl, if_neg hc] at hl
      cases hs : splitNl t with
      | nil => exact absurd hs (splitNl_ne_nil t)
      | cons h0 tl =>
        rw [hs] at hl
        rcases List.mem_cons.mp hl with h | h
        · subst h
          intro hmem
          rcases List.mem_cons.mp hmem with h1 | h1
          · exact hc h1.symm
          · exact splitNl_no_newline t h0 (by rw [hs]; exact List.mem_cons_self h0 tl) h1
        · exact splitNl_no_newline t l (by rw [hs]; exact List.mem_cons_of_mem h0 h)

theorem splitNl_mem_chars : ∀ (x : List Char) (l : List Char) (c : Char),
    l ∈ splitNl x → c ∈ l → c ∈ x
  | [], l, c, hl, hc => by
    simp [splitNl] at hl
    subst hl
    simp at hc
  | a :: t, l, c, hl, hc => by
    by_cases ha : a = '\n'
    · subst ha
      simp only [splitNl, if_pos rfl] at hl
      rcases List.mem_cons.mp hl with h | h
      · subst h; simp at hc
      · exact List.mem_cons_of_mem _ (splitNl_mem_chars t l c h hc)
    · simp only [splitNl, if_neg ha] at hl
      cases hs : splitNl t with
      | nil => exact absurd hs (splitNl_ne_nil t)
      | cons h0 tl =>
        rw [hs] at hl
        rcases List.mem_cons.mp hl with h | h
        · subst h
          rcases List.mem_cons.mp hc with h1 | h1
          · exact h1 ▸ List.mem_cons_self a t
          · exact List.mem_cons_of_mem _
              (splitNl_mem_chars t h0 c (by rw [hs]; exact List.mem_cons_self h0 tl) h1)
        · exact List.mem_cons_of_mem _
            (splitNl_mem_chars t l c (by rw [hs]; exact List.mem_cons_of_mem h0 h) hc)

theorem splitNl_append_newline : ∀ (l z : List Char), '\n' ∉ l →
    splitNl (l ++ '\n' :: z) = l :: splitNl z
  | [], z, _ => by simp [splitNl]
  | c :: l, z, h => by
    have hc : c ≠ '\n' := fun e => h (e ▸ List.mem_cons_self c l)
    have hl : '\n' ∉ l := fun m => h (List.mem_cons_of_mem c m)
    show splitNl (c :: (l ++ '\n' :: z)) = (c :: l) :: splitNl z
    simp only [splitNl, if_neg hc]
    rw [splitNl_append_newline l z hl]

theorem splitNl_of_no_newline : ∀ l : List Char, '\n' ∉ l → splitNl l = [l]
  | [], _ => rfl
  | c :: l, h => by
    have hc : c ≠ '\n' := fun e => h (e ▸ List.mem_cons_self c l)
    have hl : '\n' ∉ l := fun m => h (List.mem_cons_of_mem c m)
    simp only [splitNl, if_neg hc, splitNl_of_no_newline l hl]

theorem splitNl_joinNl : ∀ ls : List (List Char), ls ≠ [] →
    (∀ l ∈ ls, '\n' ∉ l) → splitNl (joinNl ls) = ls
  | [], h, _ => absurd rfl h
  | [l], _, h => splitNl_of_no_newline l (h l (List.mem_singleton.mpr rfl))
  | l :: l2 :: ls, _, h => by
    show splitNl (l ++ '\n' :: joinNl (l2 :: ls)) = l :: l2 :: ls
    rw [splitNl_append_newline l _ (h l (List.mem_cons_self l _)),
      splitNl_joinNl (l2 :: ls) (by simp) (fun m hm => h m (List.mem_cons_of_mem l hm))]

theorem splitNl_head_prefix_self (x hd : List Char) (t : List (List Char))
    (he : splitNl x = hd :: t) : hd <+: x := by
  have hx := joinNl_splitNl x
  rw [he] at hx
  cases t with
  | nil => exact (show hd = x from hx) ▸ List.prefix_refl hd
  | cons l2 ls =>
    rw [← hx]
    show hd <+: hd ++ '\n' :: joinNl (l2 :: ls)
    exact List.prefix_append hd _

theorem containsSub_iff : ∀ (s pat : List Char), containsSub s pat = true ↔ pat <:+: s
  | [], pat => by
    simp [containsSub, List.isPrefixOf_iff_prefix]
  | c :: t, pat => by
    simp [containsSub, List.isPrefixOf_iff_prefix, containsSub_iff t pat,
      List.infix_cons_iff]

theorem replaceAllF_length_le (pat rep : List Char) (h : rep.length ≤ pat.length) :
    ∀ (fuel : Nat) (s : List Char), (replaceAllF pat rep fuel s).length ≤ s.length
  | fuel, [] => by cases fuel <;> simp [replaceAllF]
  | 0, c :: s => by simp [replaceAllF]
  | fuel+1, c :: s => by
    simp only [replaceAllF]
    split
    · rename_i hp
      have hple : pat.length ≤ (c :: s).length :=
        (List.isPrefixOf_iff_prefix.mp hp.1).length_le
      have hpne : 1 ≤ pat.length := List.length_pos.mpr hp.2
      have hrec := replaceAllF_length_le pat rep h fuel (List.drop (pat.length - 1) s)
      simp only [List.length_append, List.length_cons, List.length_drop] at *
      omega
    · have hrec := replaceAllF_length_le pat rep h fuel s
      simp only [List.length_cons]
      omega

theorem replaceAllF_length_lt (pat rep : List Char) (hne : pat ≠ [])
    (hlt : rep.length < pat.length) :
    ∀ (fuel : Nat) (s : List Char), s.length ≤ fuel → containsSub s pat = true →
      (replaceAllF pat rep fuel s).length < s.length
  | fuel, [], hf, hc => by
    exfalso
    have := (containsSub_iff [] pat).mp hc
    rw [List.infix_nil] at this
    exact hne this
  | 0, c :: s, hf, hc => by simp at hf
  | fuel+1, c :: s, hf, hc => by
    simp only [replaceAllF]
    split
    · rename_i hp
      have hple : pat.length ≤ (c :: s).length :=
        (List.isPrefixOf_iff_prefix.mp hp.1).length_le
      have hpne : 1 ≤ pat.length := List.length_pos.mpr hp.2
      have hrec := replaceAllF_length_le pat rep (le_of_lt hlt) fuel
        (List.drop (pat.length - 1) s)
      simp only [List.length_append, List.length_cons, List.length_drop] at *
      omega
    · rename_i hp
      have hnpfx : ¬ pat <+: (c :: s) := fun hpfx =>
        hp ⟨List.isPrefixOf_iff_prefix.mpr hpfx, hne⟩
      have hct : containsSub s pat = true := by
        have hinf := (containsSub_iff (c :: s) pat).mp hc
        rcases List.infix_cons_iff.mp hinf with h | h
        · exact absurd h hnpfx
        · exact (containsSub_iff s pat).mpr h
      have hrec := replaceAllF_length_lt pat rep hne hlt fuel s
        (by simp only [List.length_cons] at hf; omega) hct
      simp only [List.length_cons]
      omega

theorem replaceAllF_self (pat : List Char) :
    ∀ (fuel : Nat) (s : List Char), s.length ≤ fuel → replaceAllF pat pat fuel s = s
  | fuel, [], _ => by cases fuel <;> rfl
  | 0, c :: s, hf => by simp at hf
  | fuel+1, c :: s, hf => by
    simp only [replaceAllF]
    split
    · rename_i hp
      obtain ⟨t, ht⟩ := List.isPrefixOf_iff_prefix.mp hp.1
      rcases hpat : pat with _ | ⟨p0, pat2⟩
      · exact absurd hpat hp.2
      subst hpat
      have ht2 : p0 :: (pat2 ++ t) = c :: s := ht
      injection ht2 with h1 h2
      have hdrop : List.drop ((p0 :: pat2).length - 1) s = t := by
        rw [← h2]
        simp
      rw [hdrop]
      have hlen := congrArg List.length h2
      simp only [List.length_append] at hlen
      rw [replaceAllF_self (p0 :: pat2) fuel t
        (by simp only [List.length_cons] at hf; omega)]
      rw [← h1, ← h2]
      rfl
    · rw [replaceAllF_self pat fuel s (by simp only [List.length_cons] at hf; omega)]

theorem replaceAll_self (s pat : List Char) : replaceAll s pat pat = s :=
  replaceAllF_self pat s.length s le_rfl

theorem collapseF_no_nl3 : ∀ (fuel : Nat) (s : List Char), s.length < fuel →
    containsSub (collapseF fuel s) nl3 = false
  | 0, s, h => absurd h (Nat.not_lt_zero _)
  | fuel+1, s, h => by
    simp only [collapseF]
    split
    · rename_i hc
      apply collapseF_no_nl3 fuel
      have hlt := replaceAllF_length_lt nl3 nl2 (by decide) (by decide) s.length s le_rfl hc
      have : (replaceAll s nl3 nl2).length < s.length := hlt
      omega
    · rename_i hc
      simpa using hc

theorem collapseNewlines_no_nl3 (s : List Char) :
    containsSub (collapseNewlines s) nl3 = false :=
  collapseF_no_nl3 (s.length + 1) s (Nat.lt_succ_self _)

theorem collapseNewlines_fix (s : List Char) (h : containsSub s nl3 = false) :
    collapseNewlines s = s := by
  show collapseF (s.length + 1) s = s
  simp [collapseF, h]

theorem rtrim_prefix_self : ∀ x : List Char, rtrim x <+: x
  | [] => List.prefix_refl []
  | c :: t => by
    simp only [rtrim]
    cases hr : rtrim t with
    | nil =>
      by_cases hw : wsChar c
      · rw [if_pos hw]; exact List.nil_prefix
      · rw [if_neg hw]; exact ⟨t, rfl⟩
    | cons a r =>
      have hp := rtrim_prefix_self t
      rw [hr] at hp
      exact List.cons_prefix_cons.mpr ⟨rfl, hp⟩

theorem rtrim_eq_nil_iff : ∀ x : List Char, rtrim x = [] ↔ ∀ c ∈ x, wsChar c
  | [] => by simp [rtrim]
  | c :: t => by
    simp only [rtrim]
    cases hr : rtrim t with
    | nil =>
      have ht := (rtrim_eq_nil_iff t).mp hr
      by_cases hw : wsChar c
      · simp only [if_pos hw]
        constructor
        · intro _ d hd
          rcases List.mem_cons.mp hd with h | h
          · exact h ▸ hw
          · exact ht d h
        · intro _; trivial
      · simp only [if_neg hw]
        constructor
        · intro h; exact List.noConfusion h
        · intro hall; exact absurd (hall c (List.mem_cons_self c t)) hw
    | cons a r =>
      have hne : ¬ ∀ d ∈ t, wsChar d := fun hall => by
        have := (rtrim_eq_nil_iff t).mpr hall
        rw [hr] at this
        exact List.noConfusion this
      constructor
      · intro h; exact List.noConfusion h
      · intro hall
        exact ((hne fun d hd => hall d (List.mem_cons_of_mem c hd))).elim

theorem rtrim_idem : ∀ x : List Char, rtrim (rtrim x) = rtrim x
  | [] => rfl
  | c :: t => by
    have hstep : rtrim (c :: t) =
        (match rtrim t with
         | [] => if wsChar c then [] else [c]
         | r => c :: r) := rfl
    cases hr : rtrim t with
    | nil =>
      rw [hstep, hr]
      dsimp only
      by_cases hw : wsChar c
      · rw [if_pos hw]; rfl
      · rw [if_neg hw]
        show rtrim [c] = [c]
        simp [rtrim, if_neg hw]
    | cons a r =>
      rw [hstep, hr]
      dsimp only
      have hrec := rtrim_idem t
      rw [hr] at hrec
      have hstep2 : rtrim (c :: a :: r) =
          (match rtrim (a :: r) with
           | [] => if wsChar c then [] else [c]
           | r => c :: r) := rfl
      rw [hstep2, hrec]

theorem trimSpace_idem (x : List Char) : trimSpace (trimSpace x) = trimSpace x := by
  unfold trimSpace
  cases hr : rtrim (x.dropWhile wsChar) with
  | nil => rfl
  | cons d r =>
    have hpfx := rtrim_prefix_self (x.dropWhile wsChar)
    rw [hr] at hpfx
    obtain ⟨u, hu⟩ := hpfx
    have hhead : ¬ wsChar d = true := by
      have := List.head_dropWhile_not wsChar x
      cases hy : x.dropWhile wsChar with
      | nil => rw [hy] at hu; exact List.noConfusion hu
      | cons y ys =>
        rw [hy] at hu
        injection hu with h1 h2
        rw [hy] at this
        simpa [h1] using this (by simp)
    rw [List.dropWhile_cons_of_neg hhead]
    have := rtrim_idem (x.dropWhile wsChar)
    rw [hr] at this
    exact this

theorem stripPre_subset (x p : List Char) : stripPre x p ⊆ x := by
  unfold stripPre
  split
  · exact List.drop_subset _ _
  · exact List.Subset.refl x

theorem bulletNorm_eq_self_of_not_star (l : List Char) (h : ¬ (str "* ") <+: l) :
    bulletNorm l = l := by
  unfold bulletNorm
  have hns : ¬ (str "* ").isPrefixOf l = true := fun hh =>
    h (List.isPrefixOf_iff_prefix.mp hh)
  by_cases hd : (str "- ").isPrefixOf l = true
  · rw [if_pos (Or.inr hd)]
    obtain ⟨rest, hrest⟩ := List.isPrefixOf_iff_prefix.mp hd
    unfold stripPre
    rw [if_neg hns, if_pos hd]
    rw [← hrest]
    simp
  · have hguard : ¬ ((str "* ").isPrefixOf l = true ∨ (str "- ").isPrefixOf l = true) := by
      intro hor
      rcases hor with hg | hg
      · exact hns hg
      · exact hd hg
    rw [if_neg hguard]

theorem bulletNorm_not_star (l : List Char) : ¬ (str "* ") <+: bulletNorm l := by
  unfold bulletNorm
  split
  · intro hp
    rcases hp with ⟨t, ht⟩
    have ht' : '*' :: (' ' :: t) = '-' :: (' ' :: (stripPre (stripPre l (str "* ")) (str "- "))) := ht
    injection ht' with h1 _
    exact absurd h1 (by decide)
  · rename_i hguard
    intro hp
    exact hguard (Or.inl (List.isPrefixOf_iff_prefix.mpr hp))

theorem bulletNorm_no_newline (l : List Char) (h : '\n' ∉ l) : '\n' ∉ bulletNorm l := by
  unfold bulletNorm
  split
  · intro hmem
    rcases List.mem_append.mp hmem with hm | hm
    · exact absurd hm (by decide)
    · exact h (stripPre_subset l (str "* ") (stripPre_subset _ (str "- ") hm))
  · exact h

theorem bulletNorm_eq_nil_iff (l : List Char) : bulletNorm l = [] ↔ l = [] := by
  unfold bulletNorm
  split
  · rename_i hguard
    constructor
    · intro h
      exact absurd h (by simp [str])
    · intro h
      subst h
      rcases hguard with hg | hg <;> exact absurd hg (by decide)
  · simp

theorem infix_nl3_of_append : ∀ (a b : List Char), '\n' ∉ a → nl3 <:+: a ++ b → nl3 <:+: b
  | [], b, _, h => by simpa using h
  | c :: a, b, ha, h => by
    have hc : c ≠ '\n' := fun e => ha (e ▸ List.mem_cons_self c a)
    rcases List.infix_cons_iff.mp h with hp | hi
    · exfalso
      rcases hp with ⟨t, ht⟩
      have ht' : '\n' :: ('\n' :: ('\n' :: t)) = c :: (a ++ b) := ht
      injection ht' with h1 _
      exact hc h1.symm
    · exact infix_nl3_of_append a b (fun m => ha (List.mem_cons_of_mem c m)) hi

theorem nl2_prefix_joinNl : ∀ ls : List (List Char), (∀ l ∈ ls, '\n' ∉ l) →
    nl2 <+: joinNl ls → ∃ rest, rest ≠ [] ∧ ls = [] :: [] :: rest
  | [], _, h => absurd (List.prefix_nil.mp h) (by decide)
  | [l], hnl, h => by
    exfalso
    exact hnl l (List.mem_singleton.mpr rfl) (h.subset (by decide))
  | l :: l2 :: ls, hnl, h => by
    have hl : l = [] := by
      rcases l with _ | ⟨d, l'⟩
      · rfl
      · exfalso
        rcases h with ⟨t, ht⟩
        have ht' : '\n' :: ('\n' :: t) = d :: (l' ++ '\n' :: joinNl (l2 :: ls)) := ht
        injection ht' with h1 _
        exact hnl (d :: l') (List.mem_cons_self _ _) (h1 ▸ List.mem_cons_self d l')
    subst hl
    have h2 : ['\n'] <+: joinNl (l2 :: ls) := by
      rcases h with ⟨t, ht⟩
      have ht' : '\n' :: ('\n' :: t) = '\n' :: joinNl (l2 :: ls) := ht
      injection ht' with _ h2'
      exact ⟨t, h2'⟩
    have hl2 : l2 = [] := by
      rcases l2 with _ | ⟨d, l2'⟩
      · rfl
      · exfalso
        cases ls with
        | nil =>
          rcases h2 with ⟨t, ht⟩
          have ht' : '\n' :: t = d :: l2' := ht
          injection ht' with h1 _
          exact hnl (d :: l2') (by simp) (h1 ▸ List.mem_cons_self d l2')
        | cons l3 ls' =>
          rcases h2 with ⟨t, ht⟩
          have ht' : '\n' :: t = d :: (l2' ++ '\n' :: joinNl (l3 :: ls')) := ht
          injection ht' with h1 _
          exact hnl (d :: l2') (by simp) (h1 ▸ List.mem_cons_self d l2')
    subst hl2
    cases ls with
    | nil =>
      exfalso
      have hle := h.length_le
      simp [joinNl, nl2] at hle
    | cons l3 ls' => exact ⟨l3 :: ls', by simp, rfl⟩

theorem infix_nl3_joinNl_map_bullet : ∀ ls : List (List Char), (∀ l ∈ ls, '\n' ∉ l) →
    nl3 <:+: joinNl (ls.map bulletNorm) → nl3 <:+: joinNl ls
  | [], _, h => by simpa using h
  | [l], hnl, h => by
    exfalso
    have hb : '\n' ∉ bulletNorm l := bulletNorm_no_newline l (hnl l (by simp))
    exact hb (h.subset (by decide))
  | l :: l2 :: ls, hnl, h => by
    have hbl : '\n' ∉ bulletNorm l := bulletNorm_no_newline l (hnl l (by simp))
    have h2 : nl3 <:+: '\n' :: joinNl ((l2 :: ls).map bulletNorm) :=
      infix_nl3_of_append (bulletNorm l) _ hbl h
    rcases List.infix_cons_iff.mp h2 with hp | hi
    · have hp2 : nl2 <+: joinNl ((l2 :: ls).map bulletNorm) := by
        rcases hp with ⟨t, ht⟩
        have ht' : '\n' :: ('\n' :: ('\n' :: t)) =
          '\n' :: joinNl ((l2 :: ls).map bulletNorm) := ht
        injection ht' with _ h2'
        exact ⟨t, h2'⟩
      have hmapnl : ∀ m ∈ (l2 :: ls).map bulletNorm, '\n' ∉ m := by
        intro m hm
        rcases List.mem_map.mp hm with ⟨l0, hl0, hb⟩
        exact hb ▸ bulletNorm_no_newline l0 (hnl l0 (List.mem_cons_of_mem l hl0))
      obtain ⟨rest', hrest', heq⟩ := nl2_prefix_joinNl _ hmapnl hp2
      have hmapc : (l2 :: ls).map bulletNorm = bulletNorm l2 :: ls.map bulletNorm := rfl
      rw [hmapc] at heq
      injection heq with he1 he2
      have hl2 : l2 = [] := (bulletNorm_eq_nil_iff l2).mp he1
      cases ls with
      | nil => exact absurd he2 (by simp)
      | cons l3 ls2 =>
        have hmapc2 : (l3 :: ls2).map bulletNorm = bulletNorm l3 :: ls2.map bulletNorm := rfl
        rw [hmapc2] at he2
        injection he2 with he3 he4
        have hl3 : l3 = [] := (bulletNorm_eq_nil_iff l3).mp he3
        have hls2 : ls2 ≠ [] := by
          intro h0
          subst h0
          simp at he4
          exact hrest' he4
        subst hl2
        subst hl3
        cases ls2 with
        | nil => exact absurd rfl hls2
        | cons l4 ls3 =>
          show nl3 <:+: l ++ '\n' :: joinNl ([] :: [] :: l4 :: ls3)
          have hjj : joinNl ([] :: [] :: l4 :: ls3) = '\n' :: '\n' :: joinNl (l4 :: ls3) := rfl
          rw [hjj]
          exact List.infix_append' l nl3 (joinNl (l4 :: ls3))
    · have hrec := infix_nl3_joinNl_map_bullet (l2 :: ls)
        (fun m hm => hnl m (List.mem_cons_of_mem l hm)) hi
      exact hrec.trans (((List.suffix_cons '\n' _).trans (List.suffix_append l _)).isInfix)

theorem cleanMarkdown_of_fixed (r : List Char)
    (h1 : containsSub r nl3 = false)
    (h2 : ∀ l ∈ splitNl r, bulletNorm l = l)
    (h3 : trimSpace r = r) :
    cleanMarkdown r = r := by
  show trimSpace (joinNl ((splitNl (collapseNewlines
    (replaceAll (replaceAll (replaceAll r (str "\n# ") (str "\n# "))
      (str "\n## ") (str "\n## ")) (str "\n### ") (str "\n### ")))).map bulletNorm)) = r
  rw [replaceAll_self, replaceAll_self, replaceAll_self, collapseNewlines_fix r h1]
  have hmap : (splitNl r).map bulletNorm = splitNl r := by
    calc (splitNl r).map bulletNorm = (splitNl r).map id := List.map_congr_left h2
    _ = splitNl r := List.map_id _
  rw [hmap, joinNl_splitNl r, h3]

theorem splitNl_cons_nl (t : List Char) : splitNl ('\n' :: t) = [] :: splitNl t := by
  simp [splitNl]

theorem splitNl_cons_of_ne (c : Char) (t : List Char) (hc : c ≠ '\n')
    (A : List Char) (B : List (List Char)) (h : splitNl t = A :: B) :
    splitNl (c :: t) = (c :: A) :: B := by
  simp only [splitNl, if_neg hc]
  rw [h]

theorem rtrim_cons_nil (c : Char) (t : List Char) (h : rtrim t = []) :
    rtrim (c :: t) = if wsChar c then [] else [c] := by
  show (match rtrim t with
        | [] => if wsChar c then [] else [c]
        | r => c :: r) = if wsChar c then [] else [c]
  rw [h]

theorem rtrim_cons_cons (c : Char) (t : List Char) (a : Char) (r : List Char)
    (h : rtrim t = a :: r) : rtrim (c :: t) = c :: a :: r := by
  show (match rtrim t with
        | [] => if wsChar c then [] else [c]
        | r => c :: r) = c :: a :: r
  rw [h]

theorem splitNl_dropWhile_ws :
    ∀ x : List Char, ∃ pre l post, splitNl x = pre ++ l :: post ∧
      splitNl (x.dropWhile wsChar) = l.dropWhile wsChar :: post
  | [] => ⟨[], [], [], by simp [splitNl], by simp [splitNl]⟩
  | c :: t => by
    by_cases hw : wsChar c
    · by_cases hc : c = '\n'
      · subst hc
        obtain ⟨pre, l, post, h1, h2⟩ := splitNl_dropWhile_ws t
        refine ⟨[] :: pre, l, post, ?_, ?_⟩
        · rw [splitNl_cons_nl, h1]
          rfl
        · rw [List.dropWhile_cons_of_pos hw]
          exact h2
      · obtain ⟨pre, l, post, h1, h2⟩ := splitNl_dropWhile_ws t
        cases pre with
        | nil =>
          refine ⟨[], c :: l, post, ?_, ?_⟩
          · rw [splitNl_cons_of_ne c t hc l post (by simpa using h1)]
            rfl
          · rw [List.dropWhile_cons_of_pos hw]
            have : (c :: l).dropWhile wsChar = l.dropWhile wsChar :=
              List.dropWhile_cons_of_pos hw
            rw [this]
            exact h2
        | cons q pre2 =>
          refine ⟨(c :: q) :: pre2, l, post, ?_, ?_⟩
          · rw [splitNl_cons_of_ne c t hc q (pre2 ++ l :: post) (by simpa using h1)]
            rfl
          · rw [List.dropWhile_cons_of_pos hw]
            exact h2
    · have hc : c ≠ '\n' := fun e => hw (by rw [e]; decide)
      cases hs : splitNl t with
      | nil => exact absurd hs (splitNl_ne_nil t)
      | cons h0 tl =>
        refine ⟨[], c :: h0, tl, ?_, ?_⟩
        · rw [splitNl_cons_of_ne c t hc h0 tl hs]
          rfl
        · rw [List.dropWhile_cons_of_neg hw]
          have : (c :: h0).dropWhile wsChar = c :: h0 := List.dropWhile_cons_of_neg hw
          rw [this]
          exact splitNl_cons_of_ne c t hc h0 tl hs

theorem splitNl_rtrim :
    ∀ y : List Char, ∃ pre l post p, splitNl y = pre ++ l :: post ∧ p <+: l ∧
      splitNl (rtrim y) = pre ++ [p]
  | [] => ⟨[], [], [], [], by simp [splitNl], List.nil_prefix, by simp [rtrim, splitNl]⟩
  | c :: t => by
    obtain ⟨pre, l, post, p, h1, h2, h3⟩ := splitNl_rtrim t
    cases hr : rtrim t with
    | nil =>
      by_cases hw : wsChar c
      · have hrt : rtrim (c :: t) = [] := by rw [rtrim_cons_nil c t hr, if_pos hw]
        cases hsx : splitNl (c :: t) with
        | nil => exact absurd hsx (splitNl_ne_nil _)
        | cons h0 tl =>
          exact ⟨[], h0, tl, [], by simp [hsx], List.nil_prefix,
            by rw [hrt]; simp [splitNl]⟩
      · have hrt : rtrim (c :: t) = [c] := by rw [rtrim_cons_nil c t hr, if_neg hw]
        have hc : c ≠ '\n' := fun e => hw (by rw [e]; decide)
        cases hsx : splitNl t with
        | nil => exact absurd hsx (splitNl_ne_nil t)
        | cons h0 tl =>
          refine ⟨[], c :: h0, tl, [c], ?_, List.cons_prefix_cons.mpr ⟨rfl, List.nil_prefix⟩, ?_⟩
          · rw [splitNl_cons_of_ne c t hc h0 tl hsx]
            rfl
          · rw [hrt]
            simp [splitNl, hc]
    | cons a r =>
      have hrt : rtrim (c :: t) = c :: a :: r := rtrim_cons_cons c t a r hr
      by_cases hc : c = '\n'
      · subst hc
        refine ⟨[] :: pre, l, post, p, ?_, h2, ?_⟩
        · rw [splitNl_cons_nl, h1]
          rfl
        · rw [hrt, splitNl_cons_nl, ← hr, h3]
          rfl
      · cases pre with
        | nil =>
          refine ⟨[], c :: l, post, c :: p, ?_, List.cons_prefix_cons.mpr ⟨rfl, h2⟩, ?_⟩
          · rw [splitNl_cons_of_ne c t hc l post (by simpa using h1)]
            rfl
          · rw [hrt]
            have h3' : splitNl (a :: r) = [p] := by rw [← hr]; simpa using h3
            rw [splitNl_cons_of_ne c (a :: r) hc p [] h3']
            rfl
        | cons q pre2 =>
          refine ⟨(c :: q) :: pre2, l, post, p, ?_, h2, ?_⟩
          · rw [splitNl_cons_of_ne c t hc q (pre2 ++ l :: post) (by simpa using h1)]
            rfl
          · rw [hrt]
            have h3' : splitNl (a :: r) = q :: (pre2 ++ [p]) := by
              rw [← hr]
              simpa using h3
            rw [splitNl_cons_of_ne c (a :: r) hc q (pre2 ++ [p]) h3']
            rfl

theorem cleanMarkdown_eq (x : List Char) :
    cleanMarkdown x = trimSpace (joinNl ((splitNl (collapseNewlines x)).map bulletNorm)) := by
  show trimSpace (joinNl ((splitNl (collapseNewlines
    (replaceAll (replaceAll (replaceAll x (str "\n# ") (str "\n# "))
      (str "\n## ") (str "\n## ")) (str "\n### ") (str "\n### ")))).map bulletNorm)) = _
  rw [replaceAll_self, replaceAll_self, replaceAll_self]

/-- Claim C4, counterexample to the claim as stated: normalizing twice is not
always the same as normalizing once.  On the input of two blanks, a star
bullet and text, the final TrimSpace of the first pass exposes a bullet
marker at the start of the text, which only the second pass rewrites. -/
theorem C4_counterexample :
    cleanMarkdown (cleanMarkdown (str "  * x")) ≠ cleanMarkdown (str "  * x") := by decide

/-- Claim C4, amended: cleanMarkdown is idempotent on every input whose
normalized form does not itself begin with a star bullet marker; the sole
failure mode is the final whitespace trim of the first pass exposing a
star-blank prefix that the line pass of the second run rewrites to a dash. -/
theorem C4_cleanMarkdown_conditional_idempotent (s : List Char)
    (h : ¬ (str "* ") <+: cleanMarkdown s) :
    cleanMarkdown (cleanMarkdown s) = cleanMarkdown s := by
  rw [cleanMarkdown_eq s] at h ⊢
  have f1 : ∀ l ∈ splitNl (collapseNewlines s), '\n' ∉ l :=
    splitNl_no_newline (collapseNewlines s)
  have f2 : ∀ m ∈ (splitNl (collapseNewlines s)).map bulletNorm, '\n' ∉ m := by
    intro m hm
    rcases List.mem_map.mp hm with ⟨l0, hl0, hb⟩
    exact hb ▸ bulletNorm_no_newline l0 (f1 l0 hl0)
  have f3 : (splitNl (collapseNewlines s)).map bulletNorm ≠ [] := by
    intro h0
    exact splitNl_ne_nil (collapseNewlines s) (List.map_eq_nil_iff.mp h0)
  have f4 : splitNl (joinNl ((splitNl (collapseNewlines s)).map bulletNorm)) =
      (splitNl (collapseNewlines s)).map bulletNorm :=
    splitNl_joinNl _ f3 f2
  have f5 : ∀ m ∈ (splitNl (collapseNewlines s)).map bulletNorm, ¬ (str "* ") <+: m := by
    intro m hm
    rcases List.mem_map.mp hm with ⟨l0, _, hb⟩
    exact hb ▸ bulletNorm_not_star l0
  have f6 : ¬ nl3 <:+: joinNl ((splitNl (collapseNewlines s)).map bulletNorm) := by
    intro hinf
    have hup := infix_nl3_joinNl_map_bullet (splitNl (collapseNewlines s)) f1 hinf
    rw [joinNl_splitNl] at hup
    have := (containsSub_iff _ _).mpr hup
    rw [collapseNewlines_no_nl3 s] at this
    exact Bool.noConfusion this
  have hinfT : trimSpace (joinNl ((splitNl (collapseNewlines s)).map bulletNorm)) <:+:
      joinNl ((splitNl (collapseNewlines s)).map bulletNorm) :=
    ((rtrim_prefix_self _).isInfix).trans ((List.dropWhile_suffix wsChar).isInfix)
  have h1f : containsSub
      (trimSpace (joinNl ((splitNl (collapseNewlines s)).map bulletNorm))) nl3 = false := by
    by_contra hcon
    have hc2 : containsSub
        (trimSpace (joinNl ((splitNl (collapseNewlines s)).map bulletNorm))) nl3 = true := by
      simpa using hcon
    exact f6 (((containsSub_iff _ _).mp hc2).trans hinfT)
  obtain ⟨pre0, l0, post2, hL1, hL2⟩ :=
    splitNl_dropWhile_ws (joinNl ((splitNl (collapseNewlines s)).map bulletNorm))
  obtain ⟨pre, lx, post, p, hR1, hR2, hR3⟩ :=
    splitNl_rtrim ((joinNl ((splitNl (collapseNewlines s)).map bulletNorm)).dropWhile wsChar)
  have hsp : splitNl (trimSpace (joinNl ((splitNl (collapseNewlines s)).map bulletNorm))) =
      pre ++ [p] := hR3
  have hstarj : ∀ m ∈ splitNl (joinNl ((splitNl (collapseNewlines s)).map bulletNorm)),
      ¬ (str "* ") <+: m := by
    rw [f4]
    exact f5
  have hpost2 : ∀ m ∈ post2, ¬ (str "* ") <+: m := by
    intro m hm
    exact hstarj m (by rw [hL1]; exact List.mem_append_right _ (List.mem_cons_of_mem _ hm))
  have hhead : ∀ (hd : List Char) (t' : List (List Char)),
      splitNl (trimSpace (joinNl ((splitNl (collapseNewlines s)).map bulletNorm))) = hd :: t' →
      ¬ (str "* ") <+: hd := by
    intro hd t' hesp hp
    exact h (hp.trans (splitNl_head_prefix_self _ hd t' hesp))
  have hcomb : pre ++ lx :: post = l0.dropWhile wsChar :: post2 := by
    rw [← hR1, hL2]
  have h2f : ∀ l' ∈ splitNl
      (trimSpace (joinNl ((splitNl (collapseNewlines s)).map bulletNorm))),
      bulletNorm l' = l' := by
    intro l' hl'
    apply bulletNorm_eq_self_of_not_star
    rw [hsp] at hl'
    rcases List.mem_append.mp hl' with hm | hm
    · cases pre with
      | nil => simp at hm
      | cons q pre2 =>
        have hcomb2 : q :: (pre2 ++ lx :: post) = l0.dropWhile wsChar :: post2 := by
          rw [← List.cons_append]
          exact hcomb
        have hq2 : pre2 ++ lx :: post = post2 := by
          injection hcomb2 with _ hh
        rcases List.mem_cons.mp hm with he | he
        · subst he
          exact hhead l' (pre2 ++ [p]) (by rw [hsp, List.cons_append])
        · exact hpost2 l' (hq2 ▸ List.mem_append_left (lx :: post) he)
    · have hp : l' = p := by simpa using hm
      subst hp
      cases pre with
      | nil =>
        exact hhead l' [] (by rw [hsp]; rfl)
      | cons q pre2 =>
        have hcomb2 : q :: (pre2 ++ lx :: post) = l0.dropWhile wsChar :: post2 := by
          rw [← List.cons_append]
          exact hcomb
        have hq2 : pre2 ++ lx :: post = post2 := by
          injection hcomb2 with _ hh
        have hlxmem : lx ∈ post2 :=
          hq2 ▸ List.mem_append_right pre2 (List.mem_cons_self lx post)
        intro hp
        exact hpost2 lx hlxmem (hp.trans hR2)
  exact cleanMarkdown_of_fixed _ h1f h2f (trimSpace_idem _)

theorem C4_witness :
    ¬ (str "* ") <+: cleanMarkdown (str "a\n\n\n\n* b") ∧
    cleanMarkdown (cleanMarkdown (str "a\n\n\n\n* b")) = cleanMarkdown (str "a\n\n\n\n* b") :=
  ⟨by decide, C4_cleanMarkdown_conditional_idempotent (str "a\n\n\n\n* b") (by decide)⟩
